import Mathlib

/-!
Verification of the spectral core of the cdp-rs repository.

The development shallowly embeds the frequency-domain transforms of the
repository (spectral blur, pitch shift, band extraction, time stretch, the
ana-container validation and the synthesis length computation) in Lean.

Modelling conventions:
- `f32`/`f64` values are modelled as exact rationals (`ℚ`); where the code
  applies inherently irrational float operations (`sqrt`, `sin`, `cos`,
  `atan2`) the model moves to `ℝ` and uses the exact mathematical functions.
- Rust `usize` arithmetic is `ℕ`; a `usize` subtraction that can underflow is
  modelled explicitly (checked: `Option`), and `f64 as usize` casts saturate at
  zero (`Int.toNat`).
- A fallible Rust function returning `Result` is modelled as `Except`.
- Flat sample buffers (`Vec<f32>`) are `List ℚ`; an index read `v[i]` whose
  bound the code guarantees is modelled as `List.getD` with default `0`.
-/

/-- Rust `f64::round` (round half away from zero) on the rational model. -/
def roundRat (q : ℚ) : ℤ :=
  if 0 ≤ q then ⌊q + 1/2⌋ else -⌊-q + 1/2⌋

/-- `SpectralError` of `crates/cdp-spectral/src/error.rs` (the variant the
modelled code paths produce). -/
inductive SpectralError where
  | invalidInput (msg : String)
deriving DecidableEq

/- ## List helper lemmas (indexing through `set`, `map`, `range`) -/

theorem getD_set_ne {α : Type} (l : List α) (i j : ℕ) (x d : α) (h : i ≠ j) :
    (l.set i x).getD j d = l.getD j d := by
  induction l generalizing i j with
  | nil => simp
  | cons a t ih =>
    cases i with
    | zero => cases j with
      | zero => exact absurd rfl h
      | succ j => simp
    | succ i => cases j with
      | zero => simp
      | succ j => simpa using ih i j (fun hc => h (by simp [hc]))

theorem getD_set_self {α : Type} (l : List α) (i : ℕ) (x d : α) (h : i < l.length) :
    (l.set i x).getD i d = x := by
  induction l generalizing i with
  | nil => simp at h
  | cons a t ih =>
    cases i with
    | zero => simp
    | succ i => simpa using ih i (by simpa using h)

theorem getD_replicate {α : Type} (n j : ℕ) (a d : α) (h : j < n) :
    (List.replicate n a).getD j d = a := by
  induction n generalizing j with
  | zero => simp at h
  | succ n ih =>
    cases j with
    | zero => simp [List.replicate]
    | succ j => simpa [List.replicate] using ih j (by omega)

theorem getD_map_range {α : Type} (f : ℕ → α) {n w : ℕ} (h : w < n) (d : α) :
    ((List.range n).map f).getD w d = f w := by
  rw [List.getD_eq_getElem?_getD, List.getElem?_map, List.getElem?_range h]
  rfl

theorem eq_of_getD {α : Type} (l1 l2 : List α) (d : α) (hlen : l1.length = l2.length)
    (h : ∀ j, j < l1.length → l1.getD j d = l2.getD j d) : l1 = l2 := by
  apply List.ext_getElem hlen
  intro j h1 h2
  have := h j h1
  rwa [List.getD_eq_getElem l1 d h1, List.getD_eq_getElem l2 d h2] at this

theorem sum_map_range' (f : ℕ → ℚ) (s k : ℕ) :
    ((List.range' s k).map f).sum = ∑ i in Finset.Ico s (s + k), f i := by
  induction k generalizing s with
  | zero => simp
  | succ k ih =>
    have hb : s + 1 + k = s + (k + 1) := by omega
    rw [List.range'_succ, List.map_cons, List.sum_cons, ih (s+1), hb,
      Finset.sum_eq_sum_Ico_succ_bot (by omega : s < s + (k+1)) f]

/- ## Spectral blur (`crates/cdp-spectral/src/blur.rs`, `blur`) -/

/-- The even-to-odd coercion of `blur_windows` (blur.rs lines 28-32). -/
def blurCoerce (b : ℕ) : ℕ :=
  if b % 2 = 0 then b + 1 else b

/-- One output frame of `blur` (blur.rs lines 53-76): frame `w` of the output,
averaging each channel over the clipped span of input frames.  `ws` is
`window_size` (= `header.channels`), `n` is `num_windows`, `half` is
`blur_span = blur_windows / 2` on the odd-coerced count.  Nat subtraction
models `saturating_sub`. -/
def blurFrame (samples : List ℚ) (ws n half w : ℕ) : List ℚ :=
  (List.range ws).map (fun c =>
    ((List.range' (w - half) ((if w + half < n then w + half + 1 else n) - (w - half))).map
        (fun i => samples.getD (i * ws + c) 0)).sum /
      (((if w + half < n then w + half + 1 else n) - (w - half) : ℕ) : ℚ))

/-- `blur` (blur.rs lines 19-82).  `ws` is the channel count of the header, and
`samples` the flat spectral payload; the produced flat output is the
concatenation of the returned frames (the code pushes the frames of
`blurFrame` consecutively into one `Vec`). -/
def blur (b ws : ℕ) (samples : List ℚ) : Except SpectralError (List (List ℚ)) :=
  if b = 0 then .error (.invalidInput "Blur windows must be greater than 0")
  else if samples.length / ws = 0 then .error (.invalidInput "Input file has no spectral data")
  else .ok ((List.range (samples.length / ws)).map
    (fun w => blurFrame samples ws (samples.length / ws) (blurCoerce b / 2) w))

/-- C2: zero blur width is rejected with `InvalidInput`, and otherwise every
channel of output frame `w` is the arithmetic mean of that channel over the
input-frame span `[max(0, w-half), min(n, w+half+1))`, where `half` is the
truncating half of the odd-coerced width (Nat subtraction `w - half` is
exactly `max(0, w-half)`). -/
theorem blur_mean (b ws : ℕ) (samples : List ℚ) (w c : ℕ)
    (hb : b ≠ 0) (hn : 1 ≤ samples.length / ws)
    (hw : w < samples.length / ws) (hc : c < ws) :
    blur 0 ws samples = .error (.invalidInput "Blur windows must be greater than 0") ∧
    ∃ frames, blur b ws samples = .ok frames ∧
      (frames.getD w []).getD c 0 =
        (∑ i in Finset.Ico (w - blurCoerce b / 2)
            (min (samples.length / ws) (w + blurCoerce b / 2 + 1)),
          samples.getD (i * ws + c) 0) /
        ((min (samples.length / ws) (w + blurCoerce b / 2 + 1) - (w - blurCoerce b / 2) : ℕ) : ℚ) := by
  constructor
  · rfl
  · have hok : blur b ws samples = .ok ((List.range (samples.length / ws)).map
        (fun w => blurFrame samples ws (samples.length / ws) (blurCoerce b / 2) w)) := by
      unfold blur
      rw [if_neg hb, if_neg (by omega)]
    refine ⟨_, hok, ?_⟩
    rw [getD_map_range _ hw]
    unfold blurFrame
    rw [getD_map_range _ hc]
    set n := samples.length / ws with hn'
    set half := blurCoerce b / 2 with hhalf
    have hend : (if w + half < n then w + half + 1 else n) = min n (w + half + 1) := by
      split <;> omega
    simp only [hend]
    rw [sum_map_range']
    have : (w - half) + (min n (w + half + 1) - (w - half)) = min n (w + half + 1) := by
      omega
    rw [this]

/-- Witness for `blur_mean`: width 2 (coerced to 3, half 1) on a three-frame,
one-channel input, middle frame: mean of all three values. -/
theorem blur_mean_witness :
    (2 : ℕ) ≠ 0 ∧ 1 ≤ [(1 : ℚ), 2, 4].length / 1 ∧ 1 < [(1 : ℚ), 2, 4].length / 1 ∧ 0 < 1 ∧
    (blur 0 1 [(1 : ℚ), 2, 4] = .error (.invalidInput "Blur windows must be greater than 0") ∧
     ∃ frames, blur 2 1 [(1 : ℚ), 2, 4] = .ok frames ∧
      (frames.getD 1 []).getD 0 0 =
        (∑ i in Finset.Ico (1 - blurCoerce 2 / 2)
            (min ([(1 : ℚ), 2, 4].length / 1) (1 + blurCoerce 2 / 2 + 1)),
          [(1 : ℚ), 2, 4].getD (i * 1 + 0) 0) /
        ((min ([(1 : ℚ), 2, 4].length / 1) (1 + blurCoerce 2 / 2 + 1) - (1 - blurCoerce 2 / 2) : ℕ) : ℚ)) :=
  ⟨by decide, by decide, by decide, by decide,
    blur_mean 2 1 [(1 : ℚ), 2, 4] 1 0 (by decide) (by decide) (by decide) (by decide)⟩

/-- C5: blur with width 1 leaves every bin value unchanged. -/
theorem blur_one_identity (ws : ℕ) (samples : List ℚ) (w c : ℕ)
    (hn : 1 ≤ samples.length / ws) (hw : w < samples.length / ws) (hc : c < ws) :
    ∃ frames, blur 1 ws samples = .ok frames ∧
      (frames.getD w []).getD c 0 = samples.getD (w * ws + c) 0 := by
  have hok : blur 1 ws samples = .ok ((List.range (samples.length / ws)).map
      (fun w => blurFrame samples ws (samples.length / ws) (blurCoerce 1 / 2) w)) := by
    unfold blur
    rw [if_neg (by omega), if_neg (by omega)]
  refine ⟨_, hok, ?_⟩
  rw [getD_map_range _ hw]
  unfold blurFrame
  rw [getD_map_range _ hc]
  have hco : blurCoerce 1 / 2 = 0 := by decide
  simp only [hco, Nat.add_zero, Nat.sub_zero]
  rw [if_pos hw]
  have : w + 1 - w = 1 := by omega
  rw [this]
  simp [List.range'_one]

/-- Witness for `blur_one_identity`: two one-channel frames, second frame. -/
theorem blur_one_identity_witness :
    1 ≤ [(5 : ℚ), 7].length / 1 ∧ 1 < [(5 : ℚ), 7].length / 1 ∧ 0 < 1 ∧
    (∃ frames, blur 1 1 [(5 : ℚ), 7] = .ok frames ∧
      (frames.getD 1 []).getD 0 0 = [(5 : ℚ), 7].getD (1 * 1 + 0) 0) :=
  ⟨by decide, by decide, by decide,
    blur_one_identity 1 [(5 : ℚ), 7] 1 0 (by decide) (by decide) (by decide)⟩

/- ## Ana container reading (`crates/cdp-spectral/src/ana_io.rs` and the
internal reader of `crates/cdp-pvoc/src/lib.rs`) -/

/-- Ana header recovered from the chunk stream (ana_io.rs lines 11-21). -/
structure AnaHeader where
  sample_rate : ℕ
  channels : ℕ
  window_len : ℕ
  dec_factor : ℕ
deriving DecidableEq

/-- The validation tail of `read_ana_file` (ana_io.rs lines 124-157): after the
chunk scan has produced the header fields and the flat float payload, the
reader fails on missing metadata, on an odd payload length, and on a payload
length that is not a multiple of the channel count; only then does it return
the parsed pair.  (The source message at the third check reads
"Data size doesn't match channel count".) -/
def read_ana_file_validate (h : AnaHeader) (samples : List ℚ) :
    Except SpectralError (AnaHeader × List ℚ) :=
  if h.window_len = 0 ∨ h.channels = 0 then
    .error (.invalidInput "Missing or invalid analysis metadata")
  else if samples.length % 2 ≠ 0 then
    .error (.invalidInput "Spectral data must contain real and imaginary pairs")
  else if samples.length % h.channels ≠ 0 then
    .error (.invalidInput "Data size does not match channel count")
  else .ok (h, samples)

/-- The `data` branch of the pvoc crate's internal `read_ana_file`
(cdp-pvoc/src/lib.rs lines 420-433): with `frame_size = channels` it reads
`num_frames = chunk_size / (frame_size * 4)` frames of `frame_size` floats
each, sequentially from the payload; `floats` is the payload as float values
(`chunk_size / 4` of them), so `num_frames = floats.len() / channels`.  No
divisibility check is made: a trailing partial frame is silently dropped. -/
def pvoc_read_data (channels : ℕ) (floats : List ℚ) : List (List ℚ) :=
  (List.range (floats.length / channels)).map
    (fun i => (List.range channels).map (fun j => floats.getD (i * channels + j) 0))

/-- C7 counterexample: a payload of three floats with two channels is not a
multiple of the channel count, yet the pvoc crate's reader does not fail: it
returns the single complete frame and silently drops the partial tail, i.e. a
truncated frame sequence is returned. -/
theorem pvoc_read_partial_counterexample :
    ([(1 : ℚ), 2, 3].length % 2 ≠ 0) ∧ pvoc_read_data 2 [(1 : ℚ), 2, 3] = [[1, 2]] := by
  constructor
  · decide
  · rfl

/-- C7 amended: the spectral crate's reader rejects a payload whose float count
is not a multiple of the channel count with an `InvalidInput` error and returns
no partial parse, while the pvoc crate's internal reader never fails on such a
payload: it returns exactly `len / channels` whole frames, dropping the tail. -/
theorem read_ana_nonmultiple (h : AnaHeader) (samples : List ℚ)
    (h1 : h.window_len ≠ 0) (h2 : h.channels ≠ 0)
    (h3 : samples.length % h.channels ≠ 0) :
    (∃ msg, read_ana_file_validate h samples = .error (.invalidInput msg)) ∧
    ∀ (floats : List ℚ) (ch : ℕ),
      (pvoc_read_data ch floats).length = floats.length / ch ∧
      ∀ fr ∈ pvoc_read_data ch floats, fr.length = ch := by
  constructor
  · unfold read_ana_file_validate
    rw [if_neg (by tauto)]
    by_cases hodd : samples.length % 2 ≠ 0
    · exact ⟨"Spectral data must contain real and imaginary pairs", by rw [if_pos hodd]⟩
    · exact ⟨"Data size does not match channel count", by rw [if_neg hodd, if_pos h3]⟩
  · intro floats ch
    constructor
    · simp [pvoc_read_data]
    · intro fr hfr
      unfold pvoc_read_data at hfr
      simp only [List.mem_map, List.mem_range] at hfr
      obtain ⟨i, _, rfl⟩ := hfr
      simp

/-- Witness for `read_ana_nonmultiple`: channels 2 and a four-value payload
plus one stray float. -/
theorem read_ana_nonmultiple_witness :
    (AnaHeader.mk 44100 2 4 3).window_len ≠ 0 ∧ (AnaHeader.mk 44100 2 4 3).channels ≠ 0 ∧
    [(1 : ℚ), 2, 3, 4, 5].length % (AnaHeader.mk 44100 2 4 3).channels ≠ 0 ∧
    ((∃ msg, read_ana_file_validate (AnaHeader.mk 44100 2 4 3) [(1 : ℚ), 2, 3, 4, 5] =
        .error (.invalidInput msg)) ∧
      ∀ (floats : List ℚ) (ch : ℕ),
        (pvoc_read_data ch floats).length = floats.length / ch ∧
        ∀ fr ∈ pvoc_read_data ch floats, fr.length = ch) :=
  ⟨by decide, by decide, by decide,
    read_ana_nonmultiple (AnaHeader.mk 44100 2 4 3) [(1 : ℚ), 2, 3, 4, 5]
      (by decide) (by decide) (by decide)⟩

/- ## Synthesis output length (`crates/cdp-pvoc/src/lib.rs`, `pvoc_synth`) -/

/-- The output buffer length of `pvoc_synth` (cdp-pvoc/src/lib.rs lines
283-285): `(spectral_frames.len() - 1) * hop_size + fft_size` in `usize`
arithmetic.  For an empty frame list the subtraction underflows (a panic under
Rust's checked arithmetic; no `Result` is ever produced), modelled as `none`. -/
def pvoc_synth_output_length (num_frames hop_size fft_size : ℕ) : Option ℕ :=
  if num_frames = 0 then none
  else some ((num_frames - 1) * hop_size + fft_size)

/-- C10: the synthesis buffer length is `(n-1)*hop + fft` and is defined
exactly when the ana file contains at least one spectral frame; with zero
frames the unsigned subtraction underflows and `pvoc_synth` panics instead of
returning an error. -/
theorem pvoc_synth_output_length_spec (hop_size fft_size n : ℕ) :
    pvoc_synth_output_length 0 hop_size fft_size = none ∧
    pvoc_synth_output_length (n + 1) hop_size fft_size = some (n * hop_size + fft_size) := by
  constructor
  · rfl
  · unfold pvoc_synth_output_length
    rw [if_neg (by omega)]
    simp


/- ## A generic lemma for the write loops of extract and pitch shift

The bin loops of `pvoc_extract`, `pitch_shift` and `pitch_shift_formant` all
walk `bin` over `0..m` and (possibly conditionally) write the two flat
positions `2*bin` and `2*bin+1` of a preallocated buffer, reading at most the
cell being overwritten.  This lemma characterises the cells of such a fold. -/

theorem foldl_write_getD {α : Type} (d : α) (cond : ℕ → Prop)
    (F G : ℕ → α → α) (step : List α → ℕ → List α) (init : List α) (m : ℕ)
    (hstepT : ∀ acc b, b < m → cond b → step acc b =
      (acc.set (2*b) (F b (acc.getD (2*b) d))).set (2*b+1) (G b (acc.getD (2*b+1) d)))
    (hstepF : ∀ acc b, b < m → ¬ cond b → step acc b = acc)
    (hm : 2*m ≤ init.length) :
    ((List.range m).foldl step init).length = init.length ∧
    (∀ j, 2*m ≤ j → ((List.range m).foldl step init).getD j d = init.getD j d) ∧
    ∀ b, b < m → cond b →
      ((List.range m).foldl step init).getD (2*b) d = F b (init.getD (2*b) d) ∧
      ((List.range m).foldl step init).getD (2*b+1) d = G b (init.getD (2*b+1) d) := by
  induction m with
  | zero =>
    refine ⟨rfl, fun j _ => rfl, fun b hb => absurd hb (by omega)⟩
  | succ m ih =>
    have hm' : 2*m ≤ init.length := by omega
    obtain ⟨ihlen, ihhigh, ihlow⟩ :=
      ih (fun acc b hb => hstepT acc b (by omega)) (fun acc b hb => hstepF acc b (by omega)) hm'
    set P := (List.range m).foldl step init with hP
    have hfold : (List.range (m+1)).foldl step init = step P m := by
      rw [show m + 1 = Nat.succ m from rfl, List.range_succ, List.foldl_append]
      rfl
    rw [hfold]
    by_cases hc : cond m
    · rw [hstepT P m (by omega) hc]
      have hPlen : P.length = init.length := ihlen
      have h2m : 2*m < init.length := by omega
      have h2m1 : 2*m+1 < init.length := by omega
      refine ⟨by simp [hPlen], ?_, ?_⟩
      · intro j hj
        rw [getD_set_ne _ _ _ _ _ (by omega), getD_set_ne _ _ _ _ _ (by omega)]
        exact ihhigh j (by omega)
      · intro b hb hcb
        rcases Nat.lt_or_ge b m with hbm | hbm
        · constructor
          · rw [getD_set_ne _ _ _ _ _ (by omega), getD_set_ne _ _ _ _ _ (by omega)]
            exact (ihlow b hbm hcb).1
          · rw [getD_set_ne _ _ _ _ _ (by omega), getD_set_ne _ _ _ _ _ (by omega)]
            exact (ihlow b hbm hcb).2
        · have hbe : b = m := by omega
          subst hbe
          constructor
          · rw [getD_set_ne _ _ _ _ _ (by omega),
              getD_set_self _ _ _ _ (by rw [hPlen]; omega),
              ihhigh (2*b) (by omega)]
          · rw [getD_set_self _ _ _ _ (by rw [List.length_set, hPlen]; omega),
              ihhigh (2*b+1) (by omega)]
    · rw [hstepF P m (by omega) hc]
      refine ⟨ihlen, fun j hj => ihhigh j (by omega), ?_⟩
      intro b hb hcb
      rcases Nat.lt_or_ge b m with hbm | hbm
      · exact ihlow b hbm hcb
      · have : b = m := by omega
        subst this
        exact absurd hcb hc

/- ## Band extraction (`crates/cdp-pvoc/src/lib.rs`, `pvoc_extract`) -/

/-- The per-frame filter of `pvoc_extract` (cdp-pvoc/src/lib.rs lines 445-489):
derives `fft_size` from the channel count, computes the bin range from the
frequency range, and writes each bin of `0..=fft_size/2` into a zeroed buffer
of the frame's length: DC and Nyquist always pass, bins inside
`[lo_bin, hi_bin]` pass, all others are written as zero.  The flat write index
`idx` of the source is `2*bin`. -/
def pvoc_extract_frame (sr channels : ℕ) (lo_freq hi_freq : ℚ) (frame : List ℚ) : List ℚ :=
  let fft_size := (channels / 2 - 1) * 2
  let bin_width := (sr : ℚ) / (fft_size : ℚ)
  let lo_bin := (⌊lo_freq / bin_width⌋).toNat
  let hi_bin := min (⌈hi_freq / bin_width⌉.toNat) (fft_size / 2)
  (List.range (fft_size / 2 + 1)).foldl (fun acc bin =>
    if bin = 0 ∨ bin = fft_size / 2 then
      (acc.set (2*bin) (frame.getD (2*bin) 0)).set (2*bin+1) (frame.getD (2*bin+1) 0)
    else if lo_bin ≤ bin ∧ bin ≤ hi_bin then
      (acc.set (2*bin) (frame.getD (2*bin) 0)).set (2*bin+1) (frame.getD (2*bin+1) 0)
    else (acc.set (2*bin) 0).set (2*bin+1) 0)
    (List.replicate frame.length 0)

/-- `pvoc_extract` maps the frame filter over all frames (lines 464-489);
header and the remaining write-out are unchanged. -/
def pvoc_extract (sr channels : ℕ) (lo_freq hi_freq : ℚ) (frames : List (List ℚ)) :
    List (List ℚ) :=
  frames.map (pvoc_extract_frame sr channels lo_freq hi_freq)

/-- Full-band extraction leaves one well-formed frame bitwise unchanged. -/
theorem pvoc_extract_frame_full (sr channels : ℕ) (frame : List ℚ) (hsr : 0 < sr)
    (hch : channels % 2 = 0) (h4 : 4 ≤ channels) (hflen : frame.length = channels) :
    pvoc_extract_frame sr channels 0 ((sr : ℚ) / 2) frame = frame := by
  have hfft : (channels / 2 - 1) * 2 = channels - 2 := by omega
  have hsrQ : ((sr : ℕ) : ℚ) ≠ 0 := Nat.cast_ne_zero.mpr hsr.ne'
  have hfftQ : (((channels - 2 : ℕ)) : ℚ) ≠ 0 := Nat.cast_ne_zero.mpr (by omega)
  have hdiv : ((sr : ℚ) / 2) / ((sr : ℚ) / ((channels - 2 : ℕ) : ℚ)) =
      ((channels - 2 : ℕ) : ℚ) / 2 := by
    field_simp
    ring
  have hcast : ((channels - 2 : ℕ) : ℚ) / 2 = (((channels - 2) / 2 : ℕ) : ℚ) := by
    have h2 : channels - 2 = 2 * ((channels - 2) / 2) := by omega
    conv_lhs => rw [h2]
    push_cast
    ring
  have hhi : min (⌈((sr : ℚ) / 2) / ((sr : ℚ) / ((channels - 2 : ℕ) : ℚ))⌉.toNat)
      ((channels - 2) / 2) = (channels - 2) / 2 := by
    rw [hdiv, hcast, Int.ceil_natCast, Int.toNat_natCast, min_self]
  have hlo : (⌊(0 : ℚ) / ((sr : ℚ) / ((channels - 2 : ℕ) : ℚ))⌋).toNat = 0 := by
    rw [zero_div, Int.floor_zero, Int.toNat_zero]
  simp only [pvoc_extract_frame, hfft, hhi, hlo]
  set half := (channels - 2) / 2 with hhalf
  have hm : 2 * (half + 1) = channels := by omega
  obtain ⟨rlen, _, rlow⟩ := foldl_write_getD (α := ℚ) 0 (fun _ => True)
    (fun b _ => frame.getD (2*b) 0) (fun b _ => frame.getD (2*b+1) 0)
    (fun acc bin =>
      if bin = 0 ∨ bin = half then
        (acc.set (2*bin) (frame.getD (2*bin) 0)).set (2*bin+1) (frame.getD (2*bin+1) 0)
      else if 0 ≤ bin ∧ bin ≤ half then
        (acc.set (2*bin) (frame.getD (2*bin) 0)).set (2*bin+1) (frame.getD (2*bin+1) 0)
      else (acc.set (2*bin) 0).set (2*bin+1) 0)
    (List.replicate frame.length 0) (half + 1)
    (by
      intro acc b hb _
      dsimp only
      split_ifs with h1 h2
      · rfl
      · rfl
      · exact absurd ⟨Nat.zero_le b, by omega⟩ h2)
    (by
      intro acc b hb hcb
      exact absurd trivial hcb)
    (by rw [List.length_replicate, hflen]; omega)
  apply eq_of_getD _ _ 0
  · rw [rlen, List.length_replicate]
  · intro j hj
    have hjlen : j < frame.length := by
      rw [rlen, List.length_replicate] at hj
      exact hj
    have hb : j / 2 < half + 1 := by omega
    have hres := rlow (j / 2) hb trivial
    rcases Nat.even_or_odd j with he | ho
    · obtain ⟨k, hk⟩ := he
      have hj2 : j = 2 * (j / 2) := by omega
      rw [hj2, hres.1]
    · obtain ⟨k, hk⟩ := ho
      have hj2 : j = 2 * (j / 2) + 1 := by omega
      rw [hj2, hres.2]

/-- C3: extracting the band from 0 to the Nyquist frequency is the identity on
every well-formed ana frame sequence: the computed bin range covers every bin
`0..=fft_size/2`, so the output spectral payload equals the input. -/
theorem pvoc_extract_full_band (sr channels : ℕ) (frames : List (List ℚ)) (hsr : 0 < sr)
    (hch : channels % 2 = 0) (h4 : 4 ≤ channels)
    (hlen : ∀ f ∈ frames, f.length = channels) :
    pvoc_extract sr channels 0 ((sr : ℚ) / 2) frames = frames := by
  unfold pvoc_extract
  induction frames with
  | nil => rfl
  | cons f t ih =>
    rw [List.map_cons,
      pvoc_extract_frame_full sr channels f hsr hch h4 (hlen f (List.mem_cons_self f t)),
      ih (fun g hg => hlen g (List.mem_cons_of_mem f hg))]

/-- Witness for `pvoc_extract_full_band`: sample rate 8, four channels
(fft size 2, Nyquist 4), one frame. -/
theorem pvoc_extract_full_band_witness :
    0 < 8 ∧ 8 % 2 = 0 ∧ 4 ≤ 4 ∧
    (∀ f ∈ [[(1 : ℚ), 2, 3, 4]], f.length = 4) ∧
    pvoc_extract 8 4 0 ((8 : ℚ) / 2) [[(1 : ℚ), 2, 3, 4]] = [[(1 : ℚ), 2, 3, 4]] :=
  ⟨by decide, by decide, by decide, by decide,
    pvoc_extract_full_band 8 4 [[(1 : ℚ), 2, 3, 4]] (by decide) (by decide) (by decide)
      (by decide)⟩

/- ## Pitch shifting (`crates/cdp-spectral/src/pitch.rs`) -/

/-- Squared magnitude of bin `b` of a flat frame: `re*re + im*im` (the code
compares and scales via `sqrt` of this; all branch tests on the magnitude are
equivalent to tests on the squared magnitude since `sqrt` is strictly
monotone with `sqrt 1 = 1` and `sqrt 0 = 0`). -/
def magSqAt (frame : List ℚ) (b : ℕ) : ℚ :=
  frame.getD (2*b) 0 * frame.getD (2*b) 0 + frame.getD (2*b+1) 0 * frame.getD (2*b+1) 0

theorem getD_replicate_self {α : Type} (n j : ℕ) (a : α) :
    (List.replicate n a).getD j a = a := by
  rcases Nat.lt_or_ge j n with hlt | hge
  · exact getD_replicate n j a a hlt
  · rw [List.getD_eq_getElem?_getD, List.getElem?_eq_none (by simpa using hge)]
    rfl

/-- Destination bin of `pitch_shift` (pitch.rs line 51):
`(bin as f64 * shift_factor).round() as usize`. -/
def pitch_shift_dst (shift_factor : ℚ) (bin : ℕ) : ℕ :=
  (roundRat ((bin : ℚ) * shift_factor)).toNat

theorem pitch_shift_dst_one (bin : ℕ) : pitch_shift_dst 1 bin = bin := by
  unfold pitch_shift_dst roundRat
  rw [mul_one, if_pos (by positivity)]
  have h : ⌊(bin : ℚ) + 1/2⌋ = (bin : ℤ) := by
    rw [Int.floor_eq_iff]
    constructor
    · push_cast
      linarith
    · push_cast
      linarith
  rw [h, Int.toNat_natCast]

/-- The bin-redistribution loop of `pitch_shift` (pitch.rs lines 45-63): each
source bin is added into its destination bin of a zeroed buffer (overlapping
destinations accumulate).  The source increments `output[dst_idx]` and then
`output[dst_idx+1]`; the second read is at a different index than the first
write, so both reads see the pre-step buffer. -/
def pitch_shift_raw_frame (shift_factor : ℚ) (num_bins : ℕ) (frame : List ℚ) : List ℚ :=
  (List.range num_bins).foldl (fun acc bin =>
    if pitch_shift_dst shift_factor bin < num_bins then
      (acc.set (2 * pitch_shift_dst shift_factor bin)
          (acc.getD (2 * pitch_shift_dst shift_factor bin) 0 + frame.getD (2*bin) 0)).set
        (2 * pitch_shift_dst shift_factor bin + 1)
        (acc.getD (2 * pitch_shift_dst shift_factor bin + 1) 0 + frame.getD (2*bin+1) 0)
    else acc)
    (List.replicate frame.length 0)

/-- The frame maximum of the squared bin magnitudes (pitch.rs lines 66-72
compute `max_magnitude`, the maximum of the square roots; the two determine
each other by monotonicity of `sqrt`). -/
def max_magnitude_sq (frame : List ℚ) (num_bins : ℕ) : ℚ :=
  (List.range num_bins).foldl (fun acc bin => max acc (magSqAt frame bin)) 0

theorem max_magnitude_sq_le_one (frame : List ℚ) (num_bins : ℕ)
    (h : ∀ b, b < num_bins → magSqAt frame b ≤ 1) :
    max_magnitude_sq frame num_bins ≤ 1 := by
  unfold max_magnitude_sq
  induction num_bins with
  | zero => norm_num
  | succ m ih =>
    rw [show m + 1 = Nat.succ m from rfl, List.range_succ, List.foldl_append]
    exact max_le (ih (fun b hb => h b (by omega))) (h m (by omega))

/-- One full frame of `pitch_shift` (pitch.rs lines 45-82): redistribution,
then the anti-clip normalization of lines 66-81: if the maximum bin magnitude
exceeds 1.0 (i.e. the maximum squared magnitude exceeds 1), every bin is
scaled by `0.95 / max_magnitude`, with `max_magnitude = sqrt max_magnitude_sq`. -/
noncomputable def pitch_shift_frame (shift_factor : ℚ) (num_bins : ℕ) (frame : List ℚ) :
    List ℝ :=
  if 1 < max_magnitude_sq (pitch_shift_raw_frame shift_factor num_bins frame) num_bins then
    (List.range num_bins).foldl (fun acc bin =>
      (acc.set (2*bin) (acc.getD (2*bin) 0 *
          ((19/20 : ℝ) / Real.sqrt
            ((max_magnitude_sq (pitch_shift_raw_frame shift_factor num_bins frame) num_bins
              : ℚ) : ℝ)))).set
        (2*bin+1) (acc.getD (2*bin+1) 0 *
          ((19/20 : ℝ) / Real.sqrt
            ((max_magnitude_sq (pitch_shift_raw_frame shift_factor num_bins frame) num_bins
              : ℚ) : ℝ))))
      ((pitch_shift_raw_frame shift_factor num_bins frame).map (fun q => (q : ℝ)))
  else (pitch_shift_raw_frame shift_factor num_bins frame).map (fun q => (q : ℝ))

/-- The slice of the flat payload that is window `w` (the region
`window_start .. window_start + window_size` the per-window loops operate
on). -/
def frameSlice (samples : List ℚ) (ws w : ℕ) : List ℚ :=
  (List.range ws).map (fun c => samples.getD (w * ws + c) 0)

/-- `pitch_shift` (pitch.rs lines 19-88): validation, then the per-window
frame transform over the `num_windows = len / window_size` windows with
`num_bins = window_size / 2`. -/
noncomputable def pitch_shift (shift_factor : ℚ) (ws : ℕ) (samples : List ℚ) :
    Except SpectralError (List (List ℝ)) :=
  if shift_factor ≤ 0 ∨ ¬(1/10 ≤ shift_factor ∧ shift_factor ≤ 10) then
    .error (.invalidInput "Shift factor must be between 0.1 and 10")
  else if samples.length / ws = 0 then
    .error (.invalidInput "Input file has no spectral data")
  else .ok ((List.range (samples.length / ws)).map
    (fun w => pitch_shift_frame shift_factor (ws / 2) (frameSlice samples ws w)))

/-- The redistribution at `shift_factor = 1` writes each source bin onto
itself exactly once, reproducing the frame. -/
theorem pitch_shift_raw_frame_one (num_bins : ℕ) (frame : List ℚ)
    (hlen : frame.length = 2 * num_bins) :
    pitch_shift_raw_frame 1 num_bins frame = frame := by
  unfold pitch_shift_raw_frame
  obtain ⟨rlen, _, rlow⟩ := foldl_write_getD (α := ℚ) 0 (fun bin => bin < num_bins)
    (fun bin a => a + frame.getD (2*bin) 0) (fun bin a => a + frame.getD (2*bin+1) 0)
    (fun acc bin =>
      if pitch_shift_dst 1 bin < num_bins then
        (acc.set (2 * pitch_shift_dst 1 bin)
            (acc.getD (2 * pitch_shift_dst 1 bin) 0 + frame.getD (2*bin) 0)).set
          (2 * pitch_shift_dst 1 bin + 1)
          (acc.getD (2 * pitch_shift_dst 1 bin + 1) 0 + frame.getD (2*bin+1) 0)
      else acc)
    (List.replicate frame.length 0) num_bins
    (by
      intro acc b hb hc
      dsimp only
      rw [pitch_shift_dst_one, if_pos hc])
    (by
      intro acc b hb hcb
      dsimp only
      rw [pitch_shift_dst_one, if_neg hcb])
    (by rw [List.length_replicate, hlen])
  apply eq_of_getD _ _ 0
  · rw [rlen, List.length_replicate]
  · intro j hj
    have hjlen : j < frame.length := by
      rw [rlen, List.length_replicate] at hj
      exact hj
    have hb : j / 2 < num_bins := by omega
    have hres := rlow (j / 2) hb hb
    rcases Nat.even_or_odd j with he | ho
    · obtain ⟨k, hk⟩ := he
      have hj2 : j = 2 * (j / 2) := by omega
      rw [hj2, hres.1, getD_replicate_self, zero_add]
    · obtain ⟨k, hk⟩ := ho
      have hj2 : j = 2 * (j / 2) + 1 := by omega
      rw [hj2, hres.2, getD_replicate_self, zero_add]

/-- C4 amended: at `shift_factor = 1.0` every source bin maps to itself and
the redistribution reproduces the frame exactly; the frame is then returned
unchanged precisely when no bin magnitude exceeds 1.0 — otherwise the
anti-clip normalization scales the whole frame by `0.95 / max_magnitude`. -/
theorem pitch_shift_one_identity_below_unit (num_bins : ℕ) (frame : List ℚ)
    (hlen : frame.length = 2 * num_bins)
    (hmag : ∀ b, b < num_bins → magSqAt frame b ≤ 1) :
    (∀ bin : ℕ, pitch_shift_dst 1 bin = bin) ∧
    pitch_shift_frame 1 num_bins frame = frame.map (fun q => (q : ℝ)) := by
  refine ⟨pitch_shift_dst_one, ?_⟩
  unfold pitch_shift_frame
  rw [pitch_shift_raw_frame_one num_bins frame hlen,
    if_neg (not_lt.mpr (max_magnitude_sq_le_one frame num_bins hmag))]

/-- Witness for `pitch_shift_one_identity_below_unit`: one bin of magnitude
1/2. -/
theorem pitch_shift_one_identity_below_unit_witness :
    [(1/2 : ℚ), 0].length = 2 * 1 ∧
    (∀ b, b < 1 → magSqAt [(1/2 : ℚ), 0] b ≤ 1) ∧
    ((∀ bin : ℕ, pitch_shift_dst 1 bin = bin) ∧
      pitch_shift_frame 1 1 [(1/2 : ℚ), 0] = [(1/2 : ℚ), 0].map (fun q => (q : ℝ))) :=
  ⟨by decide, by
      intro b hb
      have hb0 : b = 0 := by omega
      subst hb0
      norm_num [magSqAt],
    pitch_shift_one_identity_below_unit 1 [(1/2 : ℚ), 0] (by decide) (by
      intro b hb
      have hb0 : b = 0 := by omega
      subst hb0
      norm_num [magSqAt])⟩

/-- C4 counterexample: `pitch_shift` at factor 1.0 is not content-preserving.
A single frame with one bin of magnitude 2 triggers the normalization branch
(`max_magnitude = 2 > 1`), so the output bin is `2 * (0.95 / 2) = 0.95`, far
from the input value 2: the scaling is a deliberate rescale, not floating
rounding. -/
theorem pitch_shift_one_counterexample :
    pitch_shift 1 2 [(2 : ℚ), 0] = .ok [[(19/20 : ℝ), 0]] ∧
    pitch_shift 1 2 [(2 : ℚ), 0] ≠ .ok [[((2 : ℚ) : ℝ), ((0 : ℚ) : ℝ)]] := by
  have hraw : pitch_shift_raw_frame 1 1 [(2 : ℚ), 0] = [(2 : ℚ), 0] :=
    pitch_shift_raw_frame_one 1 [(2 : ℚ), 0] (by decide)
  have hmax : max_magnitude_sq [(2 : ℚ), 0] 1 = 4 := by
    unfold max_magnitude_sq magSqAt
    rw [show List.range 1 = [0] from rfl]
    norm_num [List.foldl_cons, List.foldl_nil, max_def]
  have hs4 : Real.sqrt ((4 : ℚ) : ℝ) = 2 := by
    rw [show ((4 : ℚ) : ℝ) = 2^2 by norm_num, Real.sqrt_sq (by norm_num)]
  have hmain : pitch_shift 1 2 [(2 : ℚ), 0] = .ok [[(19/20 : ℝ), 0]] := by
    unfold pitch_shift
    rw [if_neg (by norm_num), if_neg (by norm_num)]
    have hframe : frameSlice [(2 : ℚ), 0] 2 0 = [(2 : ℚ), 0] := by decide
    have h21 : [(2 : ℚ), 0].length / 2 = 1 := by decide
    rw [h21, show List.range 1 = [0] from rfl, List.map_cons, List.map_nil, hframe]
    unfold pitch_shift_frame
    rw [hraw, hmax, if_pos (by norm_num), hs4]
    rw [show List.range 1 = [0] from rfl]
    norm_num [List.foldl, List.getD, List.set]
  refine ⟨hmain, ?_⟩
  rw [hmain]
  intro hcontra
  have := Except.ok.inj hcontra
  have h1 := List.head_eq_of_cons_eq this
  have h2 := List.head_eq_of_cons_eq h1
  norm_num at h2

/- ## Formant-preserving pitch shift (`crates/cdp-spectral/src/pitch.rs`,
`pitch_shift_formant`, lines 101-171) -/

/-- The spectral envelope of a frame at bin `b` (pitch.rs lines 132-137):
`sqrt(re*re + im*im)`.  The source magnitude `src_mag` of lines 144-148 is the
same computation at the source bin, so `src_mag = envelopeAt frame src_bin`
value for value. -/
noncomputable def envelopeAt (frame : List ℚ) (b : ℕ) : ℝ :=
  Real.sqrt ((magSqAt frame b : ℚ) : ℝ)

/-- The source phase `atan2(im, re)` of pitch.rs line 149, as the argument of
the complex number `re + i*im`. -/
noncomputable def phaseAt (frame : List ℚ) (b : ℕ) : ℝ :=
  Complex.arg ⟨(frame.getD (2*b) 0 : ℚ), (frame.getD (2*b+1) 0 : ℚ)⟩

/-- Source bin of the formant mode (pitch.rs line 141):
`(bin as f64 / shift_factor).round() as usize`. -/
def formant_src_bin (shift_factor : ℚ) (bin : ℕ) : ℕ :=
  (roundRat ((bin : ℚ) / shift_factor)).toNat

open Classical in
/-- The pair written at destination bin `bin` by `pitch_shift_formant`
(pitch.rs lines 143-163): source magnitude times the envelope ratio
`envelope[bin] / envelope[src_bin]` (ratio 1 when the source envelope is not
positive), written in rectangular form with the source bin's phase. -/
noncomputable def formant_bin_value (shift_factor : ℚ) (frame : List ℚ) (bin : ℕ) : ℝ × ℝ :=
  ((envelopeAt frame (formant_src_bin shift_factor bin) *
      (if 0 < envelopeAt frame (formant_src_bin shift_factor bin) then
        envelopeAt frame bin / envelopeAt frame (formant_src_bin shift_factor bin) else 1)) *
    Real.cos (phaseAt frame (formant_src_bin shift_factor bin)),
   (envelopeAt frame (formant_src_bin shift_factor bin) *
      (if 0 < envelopeAt frame (formant_src_bin shift_factor bin) then
        envelopeAt frame bin / envelopeAt frame (formant_src_bin shift_factor bin) else 1)) *
    Real.sin (phaseAt frame (formant_src_bin shift_factor bin)))

/-- One frame of `pitch_shift_formant` with `preserve_formants = true`
(pitch.rs lines 128-165): for each destination bin whose source bin is in
range, write the formant-corrected value into the zeroed buffer; out-of-range
source bins leave the zeros. -/
noncomputable def pitch_shift_formant_frame (shift_factor : ℚ) (num_bins : ℕ)
    (frame : List ℚ) : List ℝ :=
  (List.range num_bins).foldl (fun acc bin =>
    if formant_src_bin shift_factor bin < num_bins then
      (acc.set (2*bin) (formant_bin_value shift_factor frame bin).1).set
        (2*bin+1) (formant_bin_value shift_factor frame bin).2
    else acc)
    (List.replicate frame.length 0)

/-- C9: in formant mode, whenever the source bin of destination bin `bin` is
in range and carries nonzero magnitude, the squared output magnitude at `bin`
equals the squared input magnitude at `bin` (the envelope value), independent
of `shift_factor`: `src_mag * envelope[bin]/envelope[src]` collapses to
`envelope[bin]` because `envelope[src]` is the source bin's own magnitude;
only the phase comes from the source bin. -/
theorem pitch_shift_formant_envelope (shift_factor : ℚ) (num_bins : ℕ) (frame : List ℚ)
    (bin : ℕ) (hb : bin < num_bins) (hlen : frame.length = 2 * num_bins)
    (hsrc : formant_src_bin shift_factor bin < num_bins)
    (hmag : 0 < magSqAt frame (formant_src_bin shift_factor bin)) :
    (pitch_shift_formant_frame shift_factor num_bins frame).getD (2*bin) 0 ^ 2 +
      (pitch_shift_formant_frame shift_factor num_bins frame).getD (2*bin+1) 0 ^ 2 =
      ((magSqAt frame bin : ℚ) : ℝ) := by
  unfold pitch_shift_formant_frame
  obtain ⟨rlen, _, rlow⟩ := foldl_write_getD (α := ℝ) 0
    (fun b => formant_src_bin shift_factor b < num_bins)
    (fun b _ => (formant_bin_value shift_factor frame b).1)
    (fun b _ => (formant_bin_value shift_factor frame b).2)
    (fun acc bin =>
      if formant_src_bin shift_factor bin < num_bins then
        (acc.set (2*bin) (formant_bin_value shift_factor frame bin).1).set
          (2*bin+1) (formant_bin_value shift_factor frame bin).2
      else acc)
    (List.replicate frame.length 0) num_bins
    (by
      intro acc b hb hc
      dsimp only
      rw [if_pos hc])
    (by
      intro acc b hb hcb
      dsimp only
      rw [if_neg hcb])
    (by rw [List.length_replicate, hlen])
  rw [(rlow bin hb hsrc).1, (rlow bin hb hsrc).2]
  have henv : 0 < envelopeAt frame (formant_src_bin shift_factor bin) :=
    Real.sqrt_pos.mpr (by exact_mod_cast hmag)
  have hEs : envelopeAt frame (formant_src_bin shift_factor bin) ≠ 0 := ne_of_gt henv
  unfold formant_bin_value
  rw [if_pos henv, mul_comm (envelopeAt frame (formant_src_bin shift_factor bin))
      (envelopeAt frame bin / envelopeAt frame (formant_src_bin shift_factor bin)),
    div_mul_cancel₀ (envelopeAt frame bin) hEs,
    mul_pow, mul_pow, ← mul_add, Real.cos_sq_add_sin_sq, mul_one]
  unfold envelopeAt
  rw [Real.sq_sqrt]
  have h0 : 0 ≤ magSqAt frame bin := by
    unfold magSqAt
    have h1 := mul_self_nonneg (frame.getD (2*bin) 0)
    have h2 := mul_self_nonneg (frame.getD (2*bin+1) 0)
    linarith
  exact_mod_cast h0

/-- Witness for `pitch_shift_formant_envelope`: shift 2, two bins, source bin
of destination 1 is `round(1/2) = 1` (round half away from zero), whose
magnitude is 5. -/
theorem pitch_shift_formant_envelope_witness :
    1 < 2 ∧ [(0 : ℚ), 0, 3, 4].length = 2 * 2 ∧
    formant_src_bin 2 1 < 2 ∧ 0 < magSqAt [(0 : ℚ), 0, 3, 4] (formant_src_bin 2 1) ∧
    (pitch_shift_formant_frame 2 2 [(0 : ℚ), 0, 3, 4]).getD (2*1) 0 ^ 2 +
      (pitch_shift_formant_frame 2 2 [(0 : ℚ), 0, 3, 4]).getD (2*1+1) 0 ^ 2 =
      ((magSqAt [(0 : ℚ), 0, 3, 4] 1 : ℚ) : ℝ) :=
  have hsb : formant_src_bin 2 1 = 1 := by
    unfold formant_src_bin roundRat
    norm_num
  ⟨by decide, by decide, by rw [hsb]; decide,
    by rw [hsb]; norm_num [magSqAt],
    pitch_shift_formant_envelope 2 2 [(0 : ℚ), 0, 3, 4] 1 (by decide) (by decide)
      (by rw [hsb]; decide) (by rw [hsb]; norm_num [magSqAt])⟩

/- ## Phase interpolation (`crates/cdp-spectral/src/stretch.rs`,
`interpolate_phase`, lines 298-322) -/

theorem ceil_sub_one_lt {α : Type} [LinearOrderedField α] [FloorSemiring α]
    {a : α} (ha : 0 < a) : ⌈a - 1⌉₊ < ⌈a⌉₊ := by
  have h1 : 1 ≤ ⌈a⌉₊ := by
    rw [Nat.one_le_iff_ne_zero, ← Nat.pos_iff_ne_zero]
    exact Nat.ceil_pos.mpr ha
  have h2 : ⌈a - 1⌉₊ ≤ ⌈a⌉₊ - 1 := by
    rw [Nat.ceil_le, Nat.cast_sub h1]
    have := Nat.le_ceil a
    push_cast
    linarith
  omega

theorem wrapDown_measure_lt {x : ℝ} (h : Real.pi < x) :
    ⌈(x - 2*Real.pi - Real.pi) / (2*Real.pi)⌉₊ < ⌈(x - Real.pi) / (2*Real.pi)⌉₊ := by
  have hpi := Real.pi_pos
  have key : (x - 2*Real.pi - Real.pi) / (2*Real.pi) = (x - Real.pi) / (2*Real.pi) - 1 := by
    field_simp
    ring
  rw [key]
  exact ceil_sub_one_lt (div_pos (by linarith) (by linarith))

theorem wrapUp_measure_lt {x : ℝ} (h : x < -Real.pi) :
    ⌈(-Real.pi - (x + 2*Real.pi)) / (2*Real.pi)⌉₊ < ⌈(-Real.pi - x) / (2*Real.pi)⌉₊ := by
  have hpi := Real.pi_pos
  have key : (-Real.pi - (x + 2*Real.pi)) / (2*Real.pi) = (-Real.pi - x) / (2*Real.pi) - 1 := by
    field_simp
    ring
  rw [key]
  exact ceil_sub_one_lt (div_pos (by linarith) (by linarith))

open Classical in
/-- The first adjustment loop of `interpolate_phase` (stretch.rs lines
303-305 and 314-316): `while v > PI { v -= 2*PI }`. -/
noncomputable def wrapDown (x : ℝ) : ℝ :=
  if h : Real.pi < x then wrapDown (x - 2*Real.pi) else x
termination_by Nat.ceil ((x - Real.pi) / (2*Real.pi))
decreasing_by exact wrapDown_measure_lt h

open Classical in
/-- The second adjustment loop of `interpolate_phase` (stretch.rs lines
306-308 and 317-319): `while v < -PI { v += 2*PI }`. -/
noncomputable def wrapUp (x : ℝ) : ℝ :=
  if h : x < -Real.pi then wrapUp (x + 2*Real.pi) else x
termination_by Nat.ceil ((-Real.pi - x) / (2*Real.pi))
decreasing_by exact wrapUp_measure_lt h

theorem wrapDown_eq (x : ℝ) :
    wrapDown x = if Real.pi < x then wrapDown (x - 2*Real.pi) else x := by
  rw [wrapDown]
  simp

theorem wrapUp_eq (x : ℝ) :
    wrapUp x = if x < -Real.pi then wrapUp (x + 2*Real.pi) else x := by
  rw [wrapUp]
  simp

theorem wrapDown_of_le {x : ℝ} (h : x ≤ Real.pi) : wrapDown x = x := by
  rw [wrapDown_eq, if_neg (not_lt.mpr h)]

theorem wrapDown_of_gt_of_le {x : ℝ} (h1 : Real.pi < x) (h2 : x - 2*Real.pi ≤ Real.pi) :
    wrapDown x = x - 2*Real.pi := by
  rw [wrapDown_eq, if_pos h1, wrapDown_eq, if_neg (not_lt.mpr h2)]

theorem wrapUp_of_ge {x : ℝ} (h : -Real.pi ≤ x) : wrapUp x = x := by
  rw [wrapUp_eq, if_neg (not_lt.mpr h)]

theorem wrapUp_of_lt_of_ge {x : ℝ} (h1 : x < -Real.pi) (h2 : -Real.pi ≤ x + 2*Real.pi) :
    wrapUp x = x + 2*Real.pi := by
  rw [wrapUp_eq, if_pos h1, wrapUp_eq, if_neg (not_lt.mpr h2)]

open Classical in
/-- The single ±2π adjustment into `[-π, π]` that the spec describes; under
the precondition both while-loops of the code perform at most one step and
agree with this closed form. -/
noncomputable def wrapOnce (x : ℝ) : ℝ :=
  if Real.pi < x then x - 2*Real.pi else if x < -Real.pi then x + 2*Real.pi else x

theorem wrap_both_of_bounds {x : ℝ} (hl : -(2*Real.pi) ≤ x) (hu : x ≤ 2*Real.pi) :
    wrapUp (wrapDown x) = wrapOnce x ∧ -Real.pi ≤ wrapOnce x ∧ wrapOnce x ≤ Real.pi := by
  have hpi := Real.pi_pos
  by_cases hc1 : Real.pi < x
  · have hwd : wrapDown x = x - 2*Real.pi := wrapDown_of_gt_of_le hc1 (by linarith)
    rw [hwd, wrapUp_of_ge (by linarith), wrapOnce, if_pos hc1]
    exact ⟨rfl, by linarith, by linarith⟩
  · have hwd : wrapDown x = x := wrapDown_of_le (not_lt.mp hc1)
    by_cases hc2 : x < -Real.pi
    · have hwu : wrapUp x = x + 2*Real.pi := wrapUp_of_lt_of_ge hc2 (by linarith)
      rw [hwd, hwu, wrapOnce, if_neg hc1, if_pos hc2]
      exact ⟨rfl, by linarith, by linarith⟩
    · rw [hwd, wrapUp_of_ge (not_lt.mp hc2), wrapOnce, if_neg hc1, if_neg hc2]
      exact ⟨rfl, not_lt.mp hc2, not_lt.mp hc1⟩

/-- `interpolate_phase` (stretch.rs lines 298-322): unwrap the difference by
the two adjustment loops, linearly interpolate, then re-wrap the result by the
same two loops. -/
noncomputable def interpolate_phase (phase1 phase2 frac : ℝ) : ℝ :=
  wrapUp (wrapDown (phase1 + wrapUp (wrapDown (phase2 - phase1)) * frac))

/-- C6: for phases in `[-π, π]` and `frac` in `[0, 1]`, each adjustment loop
of `interpolate_phase` runs at most one step (the function equals the closed
single-adjustment form), the result is `phase1 + diff*frac` re-wrapped where
`diff` is the difference adjusted into `[-π, π]`, and the returned value lies
in `[-π, π]`. -/
theorem interpolate_phase_spec (phase1 phase2 frac : ℝ)
    (h1 : -Real.pi ≤ phase1 ∧ phase1 ≤ Real.pi)
    (h2 : -Real.pi ≤ phase2 ∧ phase2 ≤ Real.pi)
    (hf : 0 ≤ frac ∧ frac ≤ 1) :
    interpolate_phase phase1 phase2 frac =
      wrapOnce (phase1 + wrapOnce (phase2 - phase1) * frac) ∧
    (-Real.pi ≤ wrapOnce (phase2 - phase1) ∧ wrapOnce (phase2 - phase1) ≤ Real.pi) ∧
    -Real.pi ≤ interpolate_phase phase1 phase2 frac ∧
    interpolate_phase phase1 phase2 frac ≤ Real.pi := by
  obtain ⟨h1l, h1u⟩ := h1
  obtain ⟨h2l, h2u⟩ := h2
  obtain ⟨hfl, hfu⟩ := hf
  have hpi := Real.pi_pos
  obtain ⟨hd_eq, hd_l, hd_u⟩ :=
    wrap_both_of_bounds (x := phase2 - phase1) (by linarith) (by linarith)
  have key1 : 0 ≤ (wrapOnce (phase2 - phase1) + Real.pi) * frac :=
    mul_nonneg (by linarith) hfl
  have key2 : Real.pi * frac ≤ Real.pi := mul_le_of_le_one_right hpi.le hfu
  have key3 : 0 ≤ (Real.pi - wrapOnce (phase2 - phase1)) * frac :=
    mul_nonneg (by linarith) hfl
  have hmull : -Real.pi ≤ wrapOnce (phase2 - phase1) * frac := by nlinarith [key1, key2]
  have hmulu : wrapOnce (phase2 - phase1) * frac ≤ Real.pi := by nlinarith [key3, key2]
  obtain ⟨hp_eq, hp_l, hp_u⟩ :=
    wrap_both_of_bounds (x := phase1 + wrapOnce (phase2 - phase1) * frac)
      (by linarith) (by linarith)
  unfold interpolate_phase
  rw [hd_eq, hp_eq]
  exact ⟨rfl, ⟨hd_l, hd_u⟩, hp_l, hp_u⟩

/-- Witness for `interpolate_phase_spec`: phases 3 and -3 (inside `[-π, π]`
since π > 3.141592), frac 1/2. -/
theorem interpolate_phase_spec_witness :
    ((-Real.pi ≤ 3 ∧ (3 : ℝ) ≤ Real.pi) ∧ (-Real.pi ≤ -3 ∧ (-3 : ℝ) ≤ Real.pi) ∧
      (0 ≤ (1/2 : ℝ) ∧ (1/2 : ℝ) ≤ 1)) ∧
    (interpolate_phase 3 (-3) (1/2) =
      wrapOnce (3 + wrapOnce ((-3) - 3) * (1/2)) ∧
    (-Real.pi ≤ wrapOnce ((-3) - 3) ∧ wrapOnce ((-3) - 3) ≤ Real.pi) ∧
    -Real.pi ≤ interpolate_phase 3 (-3) (1/2) ∧
    interpolate_phase 3 (-3) (1/2) ≤ Real.pi) :=
  ⟨⟨⟨by nlinarith [Real.pi_pos], by nlinarith [Real.pi_gt_d6]⟩,
    ⟨by nlinarith [Real.pi_gt_d6], by nlinarith [Real.pi_pos]⟩,
    ⟨by norm_num, by norm_num⟩⟩,
   interpolate_phase_spec 3 (-3) (1/2)
     ⟨by nlinarith [Real.pi_pos], by nlinarith [Real.pi_gt_d6]⟩
     ⟨by nlinarith [Real.pi_gt_d6], by nlinarith [Real.pi_pos]⟩
     ⟨by norm_num, by norm_num⟩⟩

/- ## Time stretch (`crates/cdp-spectral/src/stretch.rs`, `stretch_time`) -/

/-- `rect_to_polar` (stretch.rs lines 284-288): magnitude and `atan2(imag,
real)` phase (as the argument of `real + i*imag`). -/
noncomputable def rect_to_polar (re im : ℚ) : ℝ × ℝ :=
  (Real.sqrt ((re*re + im*im : ℚ) : ℝ), Complex.arg ⟨(re : ℚ), (im : ℚ)⟩)

/-- `polar_to_rect` (stretch.rs lines 291-295). -/
noncomputable def polar_to_rect (mag phase : ℝ) : ℝ × ℝ :=
  (mag * Real.cos phase, mag * Real.sin phase)

/-- One output frame of the stretch loop body (stretch.rs lines 68-113) at
fractional input position `pos`: copy the last window verbatim when the
integer part reaches `num_windows - 1`, otherwise interpolate each
real/imaginary pair of the two bracketing windows in polar form.  The same
body is shared by `stretch_time` (at `pos = out_idx / stretch_factor`) and
`stretch_time_varying` (at the running input-window cursor). -/
noncomputable def stretch_frame_at (samples : List ℚ) (ws n : ℕ) (pos : ℚ) : List ℝ :=
  let input_idx := ⌊pos⌋.toNat
  let frac := pos - (input_idx : ℚ)
  if n - 1 ≤ input_idx then
    (List.range ws).map (fun chan => ((samples.getD ((n - 1) * ws + chan) 0 : ℚ) : ℝ))
  else
    ((List.range (ws / 2)).map (fun chan =>
      let mp1 := rect_to_polar (samples.getD (input_idx * ws + 2*chan) 0)
        (samples.getD (input_idx * ws + 2*chan + 1) 0)
      let mp2 := rect_to_polar (samples.getD ((input_idx + 1) * ws + 2*chan) 0)
        (samples.getD ((input_idx + 1) * ws + 2*chan + 1) 0)
      let mag := mp1.1 + (mp2.1 - mp1.1) * ((frac : ℚ) : ℝ)
      let phase := interpolate_phase mp1.2 mp2.2 ((frac : ℚ) : ℝ)
      [(polar_to_rect mag phase).1, (polar_to_rect mag phase).2])).flatten

/-- `stretch_time` (stretch.rs lines 21-130): validate the factor, fail on an
empty input, and produce `round(num_windows * stretch_factor)` output frames,
frame `out_idx` taken at input position `out_idx / stretch_factor`. -/
noncomputable def stretch_time (stretch_factor : ℚ) (ws : ℕ) (samples : List ℚ) :
    Except SpectralError (List (List ℝ)) :=
  if stretch_factor ≤ 0 then .error (.invalidInput "Stretch factor must be greater than 0")
  else if ¬(1/100 ≤ stretch_factor ∧ stretch_factor ≤ 100) then
    .error (.invalidInput "Stretch factor must be between 0.01 and 100")
  else if samples.length / ws = 0 then
    .error (.invalidInput "Input file has no spectral data")
  else .ok ((List.range ((roundRat (((samples.length / ws : ℕ) : ℚ) * stretch_factor)).toNat)).map
    (fun (out_idx : ℕ) => stretch_frame_at samples ws (samples.length / ws)
      ((out_idx : ℚ) / stretch_factor)))

/-- C1: for a factor in `[0.01, 100]` and at least one input frame,
`stretch_time` succeeds and produces exactly
`round(num_input_frames * stretch_factor)` output frames. -/
theorem stretch_time_output_count (stretch_factor : ℚ) (ws : ℕ) (samples : List ℚ)
    (hlo : 1/100 ≤ stretch_factor) (hhi : stretch_factor ≤ 100)
    (hn : 1 ≤ samples.length / ws) :
    ∃ frames, stretch_time stretch_factor ws samples = .ok frames ∧
      frames.length = (roundRat (((samples.length / ws : ℕ) : ℚ) * stretch_factor)).toNat := by
  have hok : stretch_time stretch_factor ws samples =
      .ok ((List.range ((roundRat (((samples.length / ws : ℕ) : ℚ) * stretch_factor)).toNat)).map
        (fun (out_idx : ℕ) => stretch_frame_at samples ws (samples.length / ws)
          ((out_idx : ℚ) / stretch_factor))) := by
    unfold stretch_time
    rw [if_neg (by intro hc; linarith), if_neg (not_not_intro ⟨hlo, hhi⟩),
      if_neg (by omega)]
  refine ⟨_, hok, ?_⟩
  rw [List.length_map, List.length_range]

/-- Witness for `stretch_time_output_count`: factor 2 on a two-frame input
gives four output frames. -/
theorem stretch_time_output_count_witness :
    (1/100 : ℚ) ≤ 2 ∧ (2 : ℚ) ≤ 100 ∧ 1 ≤ [(1 : ℚ), 0, 2, 0].length / 2 ∧
    (∃ frames, stretch_time 2 2 [(1 : ℚ), 0, 2, 0] = .ok frames ∧
      frames.length = (roundRat ((([(1 : ℚ), 0, 2, 0].length / 2 : ℕ) : ℚ) * 2)).toNat) :=
  ⟨by norm_num, by norm_num, by decide,
    stretch_time_output_count 2 2 [(1 : ℚ), 0, 2, 0] (by norm_num) (by norm_num) (by decide)⟩

/- ## Time-varying stretch (`crates/cdp-spectral/src/stretch.rs`,
`stretch_time_varying` and `interpolate_stretch_value`) -/

/-- The bracket scan of `interpolate_stretch_value` (stretch.rs lines
327-336): walk adjacent control-point pairs and return the first pair whose
times bracket `time`; `none` models the loop finding no bracket (the
defaults `prev = first`, `next = last` then apply). -/
def findBracket (time : ℚ) : List (ℚ × ℚ) → Option ((ℚ × ℚ) × (ℚ × ℚ))
  | a :: b :: rest =>
    if a.1 ≤ time ∧ time ≤ b.1 then some (a, b) else findBracket time (b :: rest)
  | _ => none

theorem findBracket_spec (time : ℚ) (vals : List (ℚ × ℚ)) (p q : ℚ × ℚ)
    (h : findBracket time vals = some (p, q)) :
    p ∈ vals ∧ q ∈ vals ∧ p.1 ≤ time ∧ time ≤ q.1 := by
  induction vals with
  | nil => simp [findBracket] at h
  | cons a tail ih =>
    cases tail with
    | nil => simp [findBracket] at h
    | cons b rest =>
      rw [findBracket] at h
      split_ifs at h with hc
      · obtain ⟨rfl, rfl⟩ : a = p ∧ b = q := by
          constructor <;> · injection h with h'; cases h'; rfl
        exact ⟨List.mem_cons_self _ _, List.mem_cons_of_mem _ (List.mem_cons_self _ _),
          hc.1, hc.2⟩
      · have hres := ih h
        exact ⟨List.mem_cons_of_mem _ hres.1, List.mem_cons_of_mem _ hres.2.1, hres.2.2⟩

/-- `interpolate_stretch_value` (stretch.rs lines 325-355): defaults
`prev = first`, `next = last` possibly replaced by the bracket scan, then the
early clamp-extension returns, the near-degenerate-interval guard (`1e-10`),
and the linear interpolation. -/
def interpolate_stretch_value (time : ℚ) (stretch_values : List (ℚ × ℚ)) : ℚ :=
  let first := stretch_values.getD 0 (0, 0)
  let last := stretch_values.getD (stretch_values.length - 1) (0, 0)
  let pn := (findBracket time stretch_values).getD (first, last)
  if time < first.1 then first.2
  else if last.1 < time then last.2
  else if |pn.2.1 - pn.1.1| < 1/10000000000 then pn.1.2
  else pn.1.2 + (time - pn.1.1) / (pn.2.1 - pn.1.1) * (pn.2.2 - pn.1.2)

theorem convex_val_mem {p2 q2 r lo hi : ℚ} (hp : lo ≤ p2 ∧ p2 ≤ hi)
    (hq : lo ≤ q2 ∧ q2 ≤ hi) (hr : 0 ≤ r ∧ r ≤ 1) :
    lo ≤ p2 + r * (q2 - p2) ∧ p2 + r * (q2 - p2) ≤ hi := by
  constructor
  · nlinarith [mul_nonneg (by linarith : (0:ℚ) ≤ 1 - r) (by linarith : (0:ℚ) ≤ p2 - lo),
      mul_nonneg hr.1 (by linarith : (0:ℚ) ≤ q2 - lo)]
  · nlinarith [mul_nonneg (by linarith : (0:ℚ) ≤ 1 - r) (by linarith : (0:ℚ) ≤ hi - p2),
      mul_nonneg hr.1 (by linarith : (0:ℚ) ≤ hi - q2)]

/-- A nonempty schedule whose values all lie in the validated range yields an
interpolated value in that range: the extension branches return a schedule
value, and the interpolation branch is a convex combination of two schedule
values (its ratio lies in `[0, 1]` because the pair brackets `time`). -/
theorem interpolate_stretch_value_mem (time : ℚ) (vals : List (ℚ × ℚ))
    (hne : vals ≠ []) (hv : ∀ p ∈ vals, 1/100 ≤ p.2 ∧ p.2 ≤ 100) :
    1/100 ≤ interpolate_stretch_value time vals ∧
      interpolate_stretch_value time vals ≤ 100 := by
  have hfirst : vals.getD 0 (0, 0) ∈ vals := by
    cases vals with
    | nil => exact absurd rfl hne
    | cons a t => simp
  have hlastlt : vals.length - 1 < vals.length := by
    cases vals with
    | nil => exact absurd rfl hne
    | cons a t => simp
  have hlast : vals.getD (vals.length - 1) (0, 0) ∈ vals := by
    rw [List.getD_eq_getElem _ _ hlastlt]
    exact List.getElem_mem hlastlt
  simp only [interpolate_stretch_value]
  split_ifs with hbefore hafter hdeg
  · exact hv _ hfirst
  · exact hv _ hlast
  · cases hf : findBracket time vals with
    | none =>
      simp only [Option.getD_none]
      exact hv _ hfirst
    | some pq =>
      simp only [Option.getD_some]
      exact hv _ (findBracket_spec time vals pq.1 pq.2 (by rw [hf])).1
  · push_neg at hbefore hafter
    cases hf : findBracket time vals with
    | none =>
      rw [hf] at hdeg
      simp only [Option.getD_none] at hdeg ⊢
      have hd0 : (vals.getD 0 (0, 0)).1 ≤ (vals.getD (vals.length - 1) (0, 0)).1 :=
        le_trans hbefore hafter
      have hden : ((vals.getD (vals.length - 1) (0, 0)).1 - (vals.getD 0 (0, 0)).1) > 0 := by
        rcases abs_cases ((vals.getD (vals.length - 1) (0, 0)).1 - (vals.getD 0 (0, 0)).1) with
          ⟨he, hsgn⟩ | ⟨he, hsgn⟩ <;> push_neg at hdeg <;> linarith [hdeg, he, hd0]
      have hr : 0 ≤ (time - (vals.getD 0 (0, 0)).1) /
            ((vals.getD (vals.length - 1) (0, 0)).1 - (vals.getD 0 (0, 0)).1) ∧
          (time - (vals.getD 0 (0, 0)).1) /
            ((vals.getD (vals.length - 1) (0, 0)).1 - (vals.getD 0 (0, 0)).1) ≤ 1 := by
        constructor
        · exact div_nonneg (by linarith) (le_of_lt hden)
        · rw [div_le_one hden]
          linarith
      exact convex_val_mem (hv _ hfirst) (hv _ hlast) hr
    | some pq =>
      rw [hf] at hdeg
      simp only [Option.getD_some] at hdeg ⊢
      obtain ⟨hp, hq, hpt, htq⟩ := findBracket_spec time vals pq.1 pq.2 (by rw [hf])
      have hd0 : pq.1.1 ≤ pq.2.1 := le_trans hpt htq
      have hden : pq.2.1 - pq.1.1 > 0 := by
        rcases abs_cases (pq.2.1 - pq.1.1) with ⟨he, hsgn⟩ | ⟨he, hsgn⟩ <;>
          push_neg at hdeg <;> linarith [hdeg, he, hd0]
      have hr : 0 ≤ (time - pq.1.1) / (pq.2.1 - pq.1.1) ∧
          (time - pq.1.1) / (pq.2.1 - pq.1.1) ≤ 1 := by
        constructor
        · exact div_nonneg (by linarith) (le_of_lt hden)
        · rw [div_le_one hden]
          linarith
      exact convex_val_mem (hv _ hp) (hv _ hq) hr

/-- `time_per_window` of `stretch_time_varying` (stretch.rs line 184):
`1.0 / (sample_rate / 256.0)` — the hop count 256 is hardcoded there. -/
def time_per_window (sample_rate : ℕ) : ℚ :=
  1 / ((sample_rate : ℚ) / 256)

/-- The shared cursor update of both passes of `stretch_time_varying`
(stretch.rs lines 191-196 and 246-249): look up the stretch factor at
`current_time`, advance `input_window` by `1/stretch`.  Both passes maintain
`current_time = input_window * time_per_window` (it is initialized to
`0 = 0 * tpw` and reassigned to exactly this product after every step), so
the state is the single cursor `iw`. -/
def vary_advance (stretch_values : List (ℚ × ℚ)) (tpw iw : ℚ) : ℚ :=
  iw + 1 / interpolate_stretch_value (iw * tpw) stretch_values

/-- The first pass of `stretch_time_varying` (stretch.rs lines 186-197):
`while input_window < num_windows - 1 { advance; output_windows += 1 }`.
The loop is reached only after the validation of lines 153-160 has checked
every schedule value into `[0.01, 100]`; those facts (carried as the proof
arguments) bound each step below by `1/100`, which terminates the loop. -/
def vary_count_loop (stretch_values : List (ℚ × ℚ)) (hne : stretch_values ≠ [])
    (hv : ∀ p ∈ stretch_values, 1/100 ≤ p.2 ∧ p.2 ≤ 100) (tpw target iw : ℚ) : ℕ :=
  if h : iw < target then
    vary_count_loop stretch_values hne hv tpw target (vary_advance stretch_values tpw iw) + 1
  else 0
termination_by Nat.ceil ((target - iw) * 100)
decreasing_by
  have hs := interpolate_stretch_value_mem (iw * tpw) stretch_values hne hv
  have hspos : 0 < interpolate_stretch_value (iw * tpw) stretch_values :=
    lt_of_lt_of_le (by norm_num) hs.1
  have hstep : 1/100 ≤ 1 / interpolate_stretch_value (iw * tpw) stretch_values := by
    rw [div_le_div_iff₀ (by norm_num) hspos]
    linarith [hs.2]
  have hkey : (target - vary_advance stretch_values tpw iw) * 100 ≤ (target - iw) * 100 - 1 := by
    unfold vary_advance
    nlinarith [hstep]
  calc ⌈(target - vary_advance stretch_values tpw iw) * 100⌉₊
      ≤ ⌈(target - iw) * 100 - 1⌉₊ := Nat.ceil_mono hkey
    _ < ⌈(target - iw) * 100⌉₊ := ceil_sub_one_lt (by nlinarith [h])

/-- The first-pass count reaches the target exactly: iterating the shared
cursor update `count` times from `iw` lands at or past `target`, and every
earlier cursor value is still short of it. -/
theorem vary_count_loop_spec (stretch_values : List (ℚ × ℚ)) (hne : stretch_values ≠ [])
    (hv : ∀ p ∈ stretch_values, 1/100 ≤ p.2 ∧ p.2 ≤ 100) (tpw target : ℚ) :
    ∀ (k : ℕ) (iw : ℚ), vary_count_loop stretch_values hne hv tpw target iw = k →
      target ≤ (vary_advance stretch_values tpw)^[k] iw ∧
      ∀ m, m < k → (vary_advance stretch_values tpw)^[m] iw < target := by
  intro k
  induction k with
  | zero =>
    intro iw h
    rw [vary_count_loop] at h
    split_ifs at h with hc
    · refine ⟨not_lt.mp hc, fun m hm => absurd hm (by omega)⟩
  | succ k ih =>
    intro iw h
    rw [vary_count_loop] at h
    split_ifs at h with hc
    · have hk : vary_count_loop stretch_values hne hv tpw target
          (vary_advance stretch_values tpw iw) = k := by omega
      obtain ⟨h1, h2⟩ := ih _ hk
      constructor
      · rw [Function.iterate_succ_apply]
        exact h1
      · intro m hm
        cases m with
        | zero => simpa using hc
        | succ m =>
          rw [Function.iterate_succ_apply]
          exact h2 m (by omega)

/-- The second pass of `stretch_time_varying` (stretch.rs lines 199-250):
iterate exactly the first-pass count, producing the frame at the current
cursor (same branch-and-interpolate body as `stretch_time`, here in
`stretch_frame_at`) and advancing the cursor by the same shared update. -/
noncomputable def stretch_time_varying_frames (stretch_values : List (ℚ × ℚ))
    (hne : stretch_values ≠ [])
    (hv : ∀ p ∈ stretch_values, 1/100 ≤ p.2 ∧ p.2 ≤ 100)
    (sample_rate ws : ℕ) (samples : List ℚ) : List (List ℝ) :=
  (List.range (vary_count_loop stretch_values hne hv (time_per_window sample_rate)
      (((samples.length / ws : ℕ) : ℚ) - 1) 0)).map
    (fun (i : ℕ) => stretch_frame_at samples ws (samples.length / ws)
      ((vary_advance stretch_values (time_per_window sample_rate))^[i] 0))

/-- `stretch_time_varying` (stretch.rs lines 142-267): empty-schedule and
factor-range validation (a value fails when `s <= 0 || s < 0.01 || s > 100`,
i.e. exactly when it is outside `[0.01, 100]`), then the two passes. -/
noncomputable def stretch_time_varying (stretch_values : List (ℚ × ℚ))
    (sample_rate ws : ℕ) (samples : List ℚ) : Except SpectralError (List (List ℝ)) :=
  if hne : stretch_values = [] then
    .error (.invalidInput "Stretch values must not be empty")
  else if hv : ¬ (∀ p ∈ stretch_values, 1/100 ≤ p.2 ∧ p.2 ≤ 100) then
    .error (.invalidInput "All stretch factors must be between 0.01 and 100")
  else .ok (stretch_time_varying_frames stretch_values hne (not_not.mp hv)
    sample_rate ws samples)

/-- C8 amended: for a validated schedule, `stretch_time_varying` succeeds;
the number of frames the second pass produces equals the first-pass count;
each step advances the cursor by `1 / stretch` where the stretch factor is
interpolated at the time of the *input cursor* (`input_window *
time_per_window`), not at the output time; and the first pass stops at the
first step count whose cursor reaches `num_windows - 1`. -/
theorem stretch_time_varying_passes (stretch_values : List (ℚ × ℚ))
    (sample_rate ws : ℕ) (samples : List ℚ) (hne : stretch_values ≠ [])
    (hv : ∀ p ∈ stretch_values, 1/100 ≤ p.2 ∧ p.2 ≤ 100) :
    ∃ frames, stretch_time_varying stretch_values sample_rate ws samples = .ok frames ∧
      frames.length = vary_count_loop stretch_values hne hv (time_per_window sample_rate)
        (((samples.length / ws : ℕ) : ℚ) - 1) 0 ∧
      (∀ i : ℕ, (vary_advance stretch_values (time_per_window sample_rate))^[i+1] 0 =
        (vary_advance stretch_values (time_per_window sample_rate))^[i] 0 +
          1 / interpolate_stretch_value
            (((vary_advance stretch_values (time_per_window sample_rate))^[i] 0) *
              time_per_window sample_rate) stretch_values) ∧
      (((samples.length / ws : ℕ) : ℚ) - 1) ≤
        (vary_advance stretch_values (time_per_window sample_rate))^[
          vary_count_loop stretch_values hne hv (time_per_window sample_rate)
            (((samples.length / ws : ℕ) : ℚ) - 1) 0] 0 ∧
      ∀ m, m < vary_count_loop stretch_values hne hv (time_per_window sample_rate)
          (((samples.length / ws : ℕ) : ℚ) - 1) 0 →
        (vary_advance stretch_values (time_per_window sample_rate))^[m] 0 <
          (((samples.length / ws : ℕ) : ℚ) - 1) := by
  have hok : stretch_time_varying stretch_values sample_rate ws samples =
      .ok (stretch_time_varying_frames stretch_values hne hv sample_rate ws samples) := by
    unfold stretch_time_varying
    rw [dif_neg hne, dif_neg (not_not_intro hv)]
  refine ⟨_, hok, ?_, ?_, ?_, ?_⟩
  · unfold stretch_time_varying_frames
    rw [List.length_map, List.length_range]
  · intro i
    rw [Function.iterate_succ_apply']
    rfl
  · exact (vary_count_loop_spec stretch_values hne hv (time_per_window sample_rate)
      (((samples.length / ws : ℕ) : ℚ) - 1) _ 0 rfl).1
  · exact (vary_count_loop_spec stretch_values hne hv (time_per_window sample_rate)
      (((samples.length / ws : ℕ) : ℚ) - 1) _ 0 rfl).2

/-- Modelled from the spec: the claim says each step of the time-varying
stretch looks up the interpolated stretch factor "at the current output time
(the time of the output frame being produced)", i.e. at `i * time_per_window`
when producing output frame `i`.  This cursor follows those words; the code
(`vary_advance` iterated) instead interpolates at the input-cursor time
`input_window * time_per_window`. -/
def spec_vary_cursor (stretch_values : List (ℚ × ℚ)) (tpw : ℚ) : ℕ → ℚ
  | 0 => 0
  | i + 1 => spec_vary_cursor stretch_values tpw i +
      1 / interpolate_stretch_value ((i : ℚ) * tpw) stretch_values

theorem spec_vary_cursor_succ (stretch_values : List (ℚ × ℚ)) (tpw : ℚ) (i : ℕ) :
    spec_vary_cursor stretch_values tpw (i+1) = spec_vary_cursor stretch_values tpw i +
      1 / interpolate_stretch_value ((i : ℚ) * tpw) stretch_values := rfl

/-- A two-point example schedule: stretch 1/2 at time 0 ramping to 2 at
time 2. -/
def schedExample : List (ℚ × ℚ) := [((0 : ℚ), (1/2 : ℚ)), ((2 : ℚ), (2 : ℚ))]

theorem schedExample_ne : schedExample ≠ [] := by simp [schedExample]

theorem schedExample_valid : ∀ p ∈ schedExample, 1/100 ≤ p.2 ∧ p.2 ≤ 100 := by
  intro p hp
  simp only [schedExample, List.mem_cons, List.not_mem_nil, or_false] at hp
  rcases hp with rfl | rfl
  · exact ⟨by norm_num, by norm_num⟩
  · exact ⟨by norm_num, by norm_num⟩

theorem schedExample_interp (t : ℚ) (h0 : 0 ≤ t) (h2 : t ≤ 2) :
    interpolate_stretch_value t schedExample = 1/2 + t / 2 * (3/2) := by
  have hfb : findBracket t [((0 : ℚ), (1/2 : ℚ)), ((2 : ℚ), (2 : ℚ))] =
      some (((0 : ℚ), (1/2 : ℚ)), ((2 : ℚ), (2 : ℚ))) := by
    rw [findBracket, if_pos ⟨h0, h2⟩]
  have g0 : ([((0 : ℚ), (1/2 : ℚ)), ((2 : ℚ), (2 : ℚ))].getD 0 ((0 : ℚ), (0 : ℚ))) =
      ((0 : ℚ), (1/2 : ℚ)) := rfl
  have g1 : ([((0 : ℚ), (1/2 : ℚ)), ((2 : ℚ), (2 : ℚ))].getD
      ([((0 : ℚ), (1/2 : ℚ)), ((2 : ℚ), (2 : ℚ))].length - 1) ((0 : ℚ), (0 : ℚ))) =
      ((2 : ℚ), (2 : ℚ)) := rfl
  have habs : ¬ (|(((2 : ℚ), (2 : ℚ)) : ℚ × ℚ).1 - (((0 : ℚ), (1/2 : ℚ)) : ℚ × ℚ).1| <
      1/10000000000) := by
    have h2a : |(((2 : ℚ), (2 : ℚ)) : ℚ × ℚ).1 - (((0 : ℚ), (1/2 : ℚ)) : ℚ × ℚ).1| = 2 := by
      rw [show ((((2 : ℚ), (2 : ℚ)) : ℚ × ℚ).1 - (((0 : ℚ), (1/2 : ℚ)) : ℚ × ℚ).1) = 2
        from by norm_num]
      exact abs_of_nonneg (by norm_num)
    rw [h2a]
    norm_num
  show interpolate_stretch_value t [((0 : ℚ), (1/2 : ℚ)), ((2 : ℚ), (2 : ℚ))] = _
  simp only [interpolate_stretch_value, g0, g1, hfb, Option.getD_some]
  rw [if_neg (not_lt.mpr h0), if_neg (not_lt.mpr h2), if_neg habs]
  norm_num

/-- C8 counterexample: on the ramped schedule, sample rate 256 (one window
per time unit), the cursor the code computes after two steps differs from the
cursor prescribed by the claim's output-time lookup: the code interpolates at
the input-cursor time (0, then 2), giving `0 → 2 → 5/2`, while an output-time
lookup (times 0, then 1) gives `0 → 2 → 14/5`. -/
theorem stretch_time_varying_lookup_counterexample :
    (vary_advance schedExample (time_per_window 256))^[2] 0 = 5/2 ∧
    spec_vary_cursor schedExample (time_per_window 256) 2 = 14/5 ∧
    (vary_advance schedExample (time_per_window 256))^[2] 0 ≠
      spec_vary_cursor schedExample (time_per_window 256) 2 := by
  have htpw : time_per_window 256 = 1 := by norm_num [time_per_window]
  have hi0 : interpolate_stretch_value 0 schedExample = 1/2 := by
    rw [schedExample_interp 0 (by norm_num) (by norm_num)]
    norm_num
  have hi1 : interpolate_stretch_value 1 schedExample = 5/4 := by
    rw [schedExample_interp 1 (by norm_num) (by norm_num)]
    norm_num
  have hi2 : interpolate_stretch_value 2 schedExample = 2 := by
    rw [schedExample_interp 2 (by norm_num) (by norm_num)]
    norm_num
  have hc1 : (vary_advance schedExample (time_per_window 256))^[1] 0 = 2 := by
    have i1 : (vary_advance schedExample (time_per_window 256))^[1] 0 =
        vary_advance schedExample (time_per_window 256)
          ((vary_advance schedExample (time_per_window 256))^[0] 0) :=
      Function.iterate_succ_apply' _ 0 0
    rw [i1, Function.iterate_zero_apply]
    unfold vary_advance
    rw [htpw, show (0 : ℚ) * 1 = 0 from by norm_num, hi0]
    norm_num
  have hc2 : (vary_advance schedExample (time_per_window 256))^[2] 0 = 5/2 := by
    have i2 : (vary_advance schedExample (time_per_window 256))^[2] 0 =
        vary_advance schedExample (time_per_window 256)
          ((vary_advance schedExample (time_per_window 256))^[1] 0) :=
      Function.iterate_succ_apply' _ 1 0
    rw [i2, hc1]
    unfold vary_advance
    rw [htpw, show (2 : ℚ) * 1 = 2 from by norm_num, hi2]
    norm_num
  have hs1 : spec_vary_cursor schedExample (time_per_window 256) 1 = 2 := by
    have e1 : spec_vary_cursor schedExample (time_per_window 256) 1 =
        spec_vary_cursor schedExample (time_per_window 256) 0 +
          1 / interpolate_stretch_value (((0 : ℕ) : ℚ) * time_per_window 256) schedExample :=
      spec_vary_cursor_succ schedExample (time_per_window 256) 0
    rw [e1, show spec_vary_cursor schedExample (time_per_window 256) 0 = 0 from rfl,
      htpw, show (((0 : ℕ) : ℚ)) * 1 = 0 from by norm_num, hi0]
    norm_num
  have hs2 : spec_vary_cursor schedExample (time_per_window 256) 2 = 14/5 := by
    have e2 : spec_vary_cursor schedExample (time_per_window 256) 2 =
        spec_vary_cursor schedExample (time_per_window 256) 1 +
          1 / interpolate_stretch_value (((1 : ℕ) : ℚ) * time_per_window 256) schedExample :=
      spec_vary_cursor_succ schedExample (time_per_window 256) 1
    rw [e2, hs1, htpw, show (((1 : ℕ) : ℚ)) * 1 = 1 from by norm_num, hi1]
    norm_num
  refine ⟨hc2, hs2, ?_⟩
  rw [hc2, hs2]
  norm_num

/-- Witness for `stretch_time_varying_passes`: the ramped example schedule,
sample rate 256, two channels, three frames. -/
theorem stretch_time_varying_passes_witness :
    schedExample ≠ [] ∧ (∀ p ∈ schedExample, 1/100 ≤ p.2 ∧ p.2 ≤ 100) ∧
    (∃ frames, stretch_time_varying schedExample 256 2 [(1 : ℚ), 0, 2, 0, 3, 0] = .ok frames ∧
      frames.length = vary_count_loop schedExample schedExample_ne schedExample_valid
        (time_per_window 256) ((([(1 : ℚ), 0, 2, 0, 3, 0].length / 2 : ℕ) : ℚ) - 1) 0 ∧
      (∀ i : ℕ, (vary_advance schedExample (time_per_window 256))^[i+1] 0 =
        (vary_advance schedExample (time_per_window 256))^[i] 0 +
          1 / interpolate_stretch_value
            (((vary_advance schedExample (time_per_window 256))^[i] 0) *
              time_per_window 256) schedExample) ∧
      ((([(1 : ℚ), 0, 2, 0, 3, 0].length / 2 : ℕ) : ℚ) - 1) ≤
        (vary_advance schedExample (time_per_window 256))^[
          vary_count_loop schedExample schedExample_ne schedExample_valid (time_per_window 256)
            ((([(1 : ℚ), 0, 2, 0, 3, 0].length / 2 : ℕ) : ℚ) - 1) 0] 0 ∧
      ∀ m, m < vary_count_loop schedExample schedExample_ne schedExample_valid
          (time_per_window 256) ((([(1 : ℚ), 0, 2, 0, 3, 0].length / 2 : ℕ) : ℚ) - 1) 0 →
        (vary_advance schedExample (time_per_window 256))^[m] 0 <
          ((([(1 : ℚ), 0, 2, 0, 3, 0].length / 2 : ℕ) : ℚ) - 1)) :=
  ⟨schedExample_ne, schedExample_valid,
    stretch_time_varying_passes schedExample 256 2 [(1 : ℚ), 0, 2, 0, 3, 0]
      schedExample_ne schedExample_valid⟩
